import Mathlib

/-!
Verification of the encrypting/decrypting stream filter `hfile_cip.c`
(htslib-plugins), against its natural-language specification.

Shallow embedding conventions:
* Bytes are `Nat` (the cipher layer only XORs them; no 0..255 bound is
  needed for the properties proved here).
* The AES-128-CTR keystream produced by the crypto library for a given
  secret and IV is abstracted as a function `Nat → Nat` giving the
  keystream byte at each offset; `cipher_update` in CTR mode XORs the
  input with the keystream at the context's current offset and advances
  the offset (length-preserving, identical for the encrypt and decrypt
  directions).  Theorems quantify over this keystream function.
* Underlying-stream I/O (`hopen`/`hread`/`hwrite`/`hclose`) is modelled
  either deterministically (a byte list) or, where a claim is about
  failure behaviour, by an oracle scripting each call's outcome.
* Each raw-stream interaction is recorded as an event so that claims
  about "no underlying I/O", "no key derivation", ordering of the IV
  header, and abrupt close can be stated over the event trace.
-/

/-- errno value EPERM (missing HTS_CIP_KEY secret). -/
def EPERM : Nat := 1

/-- errno value EINVAL (invalid access mode). -/
def EINVAL : Nat := 22

/-- errno value ESPIPE (seek on a non-seekable stream). -/
def ESPIPE : Nat := 29

/-- errno value EDOM (truncated IV header). -/
def EDOM : Nat := 33

/-- CTR-mode `cipher_update`: XOR the byte list with the keystream `ks`
starting at keystream offset `pos`.  This is the effect of
`EVP_CipherUpdate` with an AES-CTR context whose counter has already
consumed `pos` bytes; output length equals input length. -/
def ctrXor (ks : Nat → Nat) : Nat → List Nat → List Nat
  | _, [] => []
  | pos, b :: rest => (b ^^^ ks pos) :: ctrXor ks (pos + 1) rest

theorem ctrXor_length (ks : Nat → Nat) (pos : Nat) (l : List Nat) :
    (ctrXor ks pos l).length = l.length := by
  induction l generalizing pos with
  | nil => rfl
  | cons b rest ih => simp [ctrXor, ih]

theorem ctrXor_append (ks : Nat → Nat) (pos : Nat) (a b : List Nat) :
    ctrXor ks pos (a ++ b) = ctrXor ks pos a ++ ctrXor ks (pos + a.length) b := by
  induction a generalizing pos with
  | nil => simp [ctrXor]
  | cons x rest ih =>
      simp only [List.cons_append, ctrXor, List.length_cons, List.append_eq]
      rw [ih]
      have h : pos + 1 + rest.length = pos + (rest.length + 1) := by omega
      rw [h]

theorem ctrXor_ctrXor (ks : Nat → Nat) (pos : Nat) (l : List Nat) :
    ctrXor ks pos (ctrXor ks pos l) = l := by
  induction l generalizing pos with
  | nil => rfl
  | cons b rest ih => simp [ctrXor, ih, Nat.xor_cancel_right]

/-- One interaction of the cip layer with the outside world.  `rawOpen`,
`rawRead`, `rawWrite`, `rawClose` and `rawCloseAbrupt` are calls on the
underlying stream (`hopen` / `hread` / `hwrite` / `hclose` /
`hclose_abruptly`); `keyDerive` is the PBKDF2 key-derivation call;
`cipherInit` is cipher-context creation; `freeAll` is the error-path
release of the scratch buffer and the half-built handle (`free` +
`hfile_destroy`). -/
inductive Ev where
  | rawOpen : Ev
  | rawRead : List Nat → Ev
  | rawWrite : List Nat → Ev
  | rawClose : Ev
  | rawCloseAbrupt : Ev
  | keyDerive : Ev
  | cipherInit : Ev
  | freeAll : Ev
  deriving DecidableEq

/-- The access mode extracted by `hfile_oflags(mode) & O_ACCMODE` in
`hopen_cip`: read-only, write-only, or anything else (e.g. "r+"). -/
inductive AccMode where
  | rdonly : AccMode
  | wronly : AccMode
  | rdwr : AccMode
  deriving DecidableEq

/-- The state of a successfully opened cip stream handle (`hFILE_cip`
after `hopen_cip` returns): the direction flag `is_write`, the keystream
fixed by key derivation and cipher initialization, the number of
keystream bytes already consumed (`pos`, 0 at open), and — for read
sessions — the underlying stream's bytes remaining after the 16-byte IV
header was consumed. -/
structure OpenedCip where
  is_write : Bool
  ks : Nat → Nat
  pos : Nat
  rawRemaining : List Nat

/-- `hopen_cip`, with the underlying stream modelled deterministically:
`raw` is the underlying stream's contents (consulted on read opens; a
write open starts from an empty stream), `iv` is the 16-byte block that
`gen_random` produces on a write open, `KS secret iv` is the keystream
that key derivation plus cipher initialization fix for the session.
Returns the result (errno on failure) and the trace of events, in
order.  Following the source: a missing secret fails with EPERM before
any event; then the underlying stream is opened; a read open `hread`s
the 16-byte IV and fails with EDOM on a short header; a write open
writes the random IV; any other access mode fails with EINVAL; key
derivation and cipher initialization happen only after successful
header I/O; every failure after the underlying open closes it abruptly
and frees the partial resources. -/
def hopen_cip (KS : String → List Nat → Nat → Nat) (secret : Option String)
    (accmode : AccMode) (raw : List Nat) (iv : List Nat) :
    Except Nat OpenedCip × List Ev :=
  match secret with
  | none => (Except.error EPERM, [])
  | some s =>
    match accmode with
    | AccMode.rdonly =>
        let n := min 16 raw.length
        let hdr := raw.take n
        if n < 16 then
          (Except.error EDOM,
           [Ev.rawOpen, Ev.rawRead hdr, Ev.rawCloseAbrupt, Ev.freeAll])
        else
          (Except.ok ⟨false, KS s hdr, 0, raw.drop 16⟩,
           [Ev.rawOpen, Ev.rawRead hdr, Ev.keyDerive, Ev.cipherInit])
    | AccMode.wronly =>
        (Except.ok ⟨true, KS s iv, 0, []⟩,
         [Ev.rawOpen, Ev.rawWrite iv, Ev.keyDerive, Ev.cipherInit])
    | AccMode.rdwr =>
        (Except.error EINVAL, [Ev.rawOpen, Ev.rawCloseAbrupt, Ev.freeAll])

/-- `cip_seek`: unconditionally sets errno to ESPIPE and returns -1,
touching nothing else; the (unchanged) handle is returned alongside. -/
def cip_seek (fp : OpenedCip) (offset : Int) (whence : Int) :
    Except Nat Int × OpenedCip :=
  (Except.error ESPIPE, fp)

/-- Byte-list prefix test (the effect of the `strncmp(...) == 0` calls
in `strip_cip_scheme`). -/
def isPref : List Char → List Char → Bool
  | [], _ => true
  | _ :: _, [] => false
  | a :: as, b :: bs => a == b && isPref as bs

/-- `strip_cip_scheme`: drop a recognized `cip:` scheme wrapper from the
target identifier, trying `cip://localhost/` (keep the final slash),
then `cip:///` (keep the final slash), then bare `cip:`. -/
def strip_cip_scheme (filename : List Char) : List Char :=
  if isPref ("cip://localhost/".toList) filename then filename.drop 15
  else if isPref ("cip:///".toList) filename then filename.drop 6
  else if isPref ("cip:".toList) filename then filename.drop 4
  else filename

/-- The scratch-buffer size fixed at open: `8192 * BLOCKSIZE` with the
AES block size of 16. -/
def cipBufsize : Nat := 8192 * 16

/-- The `cip_write` loop against an underlying stream that accepts every
write in full, recorded as events: while data remains, take up to
`bufsize` caller bytes, transform them with `cipher_update` (XOR with
the keystream at the context's offset), and `hwrite` the transformed
chunk.  Returns the event trace (one `rawWrite` per iteration).  The
`bufsize = 0` guard is vacuous in every use (the source fixes
`bufsize = 8192 * 16`) and only makes the recursion terminate. -/
def cipWriteEvs (ks : Nat → Nat) (bufsize pos : Nat) (data : List Nat) :
    List Ev :=
  if h : data = [] ∨ bufsize = 0 then []
  else
    let n := min data.length bufsize
    Ev.rawWrite (ctrXor ks pos (data.take n)) ::
      cipWriteEvs ks bufsize (pos + n) (data.drop n)
termination_by data.length
decreasing_by
  simp only [List.length_drop]
  have h1 : data ≠ [] := fun hc => h (Or.inl hc)
  have h2 : bufsize ≠ 0 := fun hc => h (Or.inr hc)
  have h3 : 0 < data.length := List.length_pos.mpr h1
  omega

/-- The bytes a trace of events persists to the underlying stream: the
concatenation of all `rawWrite` payloads, in order. -/
def writtenOf (evs : List Ev) : List Nat :=
  (evs.filterMap fun e =>
    match e with
    | Ev.rawWrite d => some d
    | _ => none).flatten

/-- The sequence of `rawWrite` payloads of a trace, in order. -/
def writesOf (evs : List Ev) : List (List Nat) :=
  evs.filterMap fun e =>
    match e with
    | Ev.rawWrite d => some d
    | _ => none

/-- The `cip_read` loop against a deterministic underlying stream whose
remaining contents are `raw` (each `hread` returns
`min requested remaining` bytes): while the caller still wants bytes,
`hread` up to `min nbytes bufsize` raw bytes, stop at end of stream,
otherwise transform the chunk with `cipher_update` and append it to the
output.  Returns the transformed bytes delivered to the caller.  The
`bufsize = 0` guard is vacuous in every use and only makes the
recursion terminate. -/
def cip_read (ks : Nat → Nat) (bufsize pos : Nat) (raw : List Nat)
    (nbytes : Nat) : List Nat :=
  if h : nbytes = 0 ∨ bufsize = 0 then []
  else
    let n := min nbytes bufsize
    let nread := min n raw.length
    if h2 : nread = 0 then []
    else
      ctrXor ks pos (raw.take nread) ++
        cip_read ks bufsize (pos + nread) (raw.drop nread) (nbytes - nread)
termination_by raw.length
decreasing_by
  simp only [List.length_drop]
  omega

/-- Output of `cipher_final` for AES-CTR: counter mode buffers nothing,
so the final flush is empty. -/
def ctrFinal : List Nat := []

/-- Events of a successful `cip_close` on a write session: `cipher_final`
produces `ctrFinal` (flushed with `hwrite` only when non-empty, which
for CTR it never is), the cipher context is released, and the
underlying stream is closed. -/
def closeEvsW : List Ev :=
  (if 0 < ctrFinal.length then [Ev.rawWrite ctrFinal] else []) ++ [Ev.rawClose]

/-- Events of a sequence of `cip_write` calls on one session, the
cipher context's keystream offset advancing across calls. -/
def sessionWrites (ks : Nat → Nat) (pos : Nat) : List (List Nat) → List Ev
  | [] => []
  | P :: Ps => cipWriteEvs ks cipBufsize pos P ++
      sessionWrites ks (pos + P.length) Ps

/-- Full event trace of a write session: `hopen_cip` in write mode
(random IV `iv`, keystream `KS secret iv`), then the caller's `cip_write`
calls `Ps` in order, then `cip_close`. -/
def writeSessionEvents (KS : String → List Nat → Nat → Nat) (secret : String)
    (iv : List Nat) (Ps : List (List Nat)) : List Ev :=
  (hopen_cip KS (some secret) AccMode.wronly [] iv).2 ++
    sessionWrites (KS secret iv) 0 Ps ++ closeEvsW

/-- A fresh read session over underlying-stream contents `raw`:
`hopen_cip` in read mode (which consumes and validates the 16-byte IV
header and fixes the keystream from the secret and that header), then
one `cip_read` asking for `n` bytes.  Returns the plaintext delivered,
or the open error. -/
def readSession (KS : String → List Nat → Nat → Nat) (secret : String)
    (raw : List Nat) (n : Nat) : Except Nat (List Nat) :=
  match hopen_cip KS (some secret) AccMode.rdonly raw [] with
  | (Except.error e, _) => Except.error e
  | (Except.ok fp, _) =>
      Except.ok (cip_read fp.ks cipBufsize fp.pos fp.rawRemaining n)

theorem writtenOf_append (a b : List Ev) :
    writtenOf (a ++ b) = writtenOf a ++ writtenOf b := by
  simp [writtenOf, List.filterMap_append]

theorem writtenOf_write_cons (d : List Nat) (evs : List Ev) :
    writtenOf (Ev.rawWrite d :: evs) = d ++ writtenOf evs := rfl

theorem cipWriteEvs_writtenOf (ks : Nat → Nat) (bufsize : Nat)
    (hbs : bufsize ≠ 0) :
    ∀ len pos (data : List Nat), data.length ≤ len →
      writtenOf (cipWriteEvs ks bufsize pos data) = ctrXor ks pos data := by
  intro len
  induction len with
  | zero =>
      intro pos data hlen
      have hdata : data = [] := List.length_eq_zero.mp (Nat.le_zero.mp hlen)
      rw [cipWriteEvs]
      simp [hdata, writtenOf, ctrXor]
  | succ k ih =>
      intro pos data hlen
      rw [cipWriteEvs]
      by_cases hdata : data = []
      · simp [hdata, writtenOf, ctrXor]
      · have hcond : ¬(data = [] ∨ bufsize = 0) := by
          intro hc
          rcases hc with hc | hc
          · exact hdata hc
          · exact hbs hc
        simp only [hcond, dite_false]
        rw [writtenOf_write_cons]
        have hpos : 0 < data.length := List.length_pos.mpr hdata
        have hbs1 : 0 < bufsize := Nat.pos_of_ne_zero hbs
        have hmin : 0 < min data.length bufsize := lt_min hpos hbs1
        have hdrop : (data.drop (min data.length bufsize)).length ≤ k := by
          simp only [List.length_drop]
          omega
        rw [ih (pos + min data.length bufsize) _ hdrop]
        have hlen2 : (data.take (min data.length bufsize)).length
            = min data.length bufsize := by
          simp [List.length_take]
        have happ := ctrXor_append ks pos
          (data.take (min data.length bufsize))
          (data.drop (min data.length bufsize))
        rw [List.take_append_drop, hlen2] at happ
        rw [happ]

theorem cip_read_collapse (ks : Nat → Nat) (bufsize : Nat)
    (hbs : bufsize ≠ 0) :
    ∀ len pos (raw : List Nat) (nbytes : Nat), raw.length ≤ len →
      cip_read ks bufsize pos raw nbytes = ctrXor ks pos (raw.take nbytes) := by
  intro len
  induction len with
  | zero =>
      intro pos raw nbytes hlen
      have hraw : raw = [] := List.length_eq_zero.mp (Nat.le_zero.mp hlen)
      rw [cip_read]
      by_cases hn : nbytes = 0
      · simp [hn, hraw, ctrXor]
      · have hcond : ¬(nbytes = 0 ∨ bufsize = 0) := by
          intro hc
          rcases hc with hc | hc
          · exact hn hc
          · exact hbs hc
        simp [hcond, hraw, ctrXor]
  | succ k ih =>
      intro pos raw nbytes hlen
      rw [cip_read]
      by_cases hn : nbytes = 0
      · simp [hn, ctrXor]
      · have hcond : ¬(nbytes = 0 ∨ bufsize = 0) := by
          intro hc
          rcases hc with hc | hc
          · exact hn hc
          · exact hbs hc
        simp only [hcond, dite_false]
        by_cases hraw : raw = []
        · simp [hraw, ctrXor]
        · have hposn : 0 < nbytes := Nat.pos_of_ne_zero hn
          have hbs1 : 0 < bufsize := Nat.pos_of_ne_zero hbs
          have hrawpos : 0 < raw.length := List.length_pos.mpr hraw
          have hminpos : 0 < min (min nbytes bufsize) raw.length := by
            exact lt_min (lt_min hposn hbs1) hrawpos
          have hne : ¬ (min (min nbytes bufsize) raw.length = 0) := by omega
          simp only [hne, dite_false]
          have hdrop : (raw.drop (min (min nbytes bufsize) raw.length)).length
              ≤ k := by
            simp only [List.length_drop]
            omega
          rw [ih _ _ _ hdrop]
          set nr := min (min nbytes bufsize) raw.length with hnr
          have hnr_le_n : nr ≤ nbytes := le_trans (min_le_left _ _)
            (min_le_left _ _)
          have hnr_le_raw : nr ≤ raw.length := min_le_right _ _
          have htake : (raw.take nr).length = nr := by
            simp [List.length_take, hnr_le_raw]
          have hsplit : raw.take nr ++ (raw.drop nr).take (nbytes - nr)
              = raw.take nbytes := by
            rw [← List.take_add]
            congr 1
            omega
          have happ := ctrXor_append ks pos (raw.take nr)
            ((raw.drop nr).take (nbytes - nr))
          rw [htake, hsplit] at happ
          rw [← happ]

theorem writesOf_append (a b : List Ev) :
    writesOf (a ++ b) = writesOf a ++ writesOf b := by
  simp [writesOf, List.filterMap_append]

theorem sessionWrites_writtenOf (ks : Nat → Nat) (pos : Nat)
    (Ps : List (List Nat)) :
    writtenOf (sessionWrites ks pos Ps) = ctrXor ks pos Ps.flatten := by
  induction Ps generalizing pos with
  | nil => rfl
  | cons P Ps ih =>
      simp only [sessionWrites, writtenOf_append]
      rw [cipWriteEvs_writtenOf ks cipBufsize (by decide) P.length pos P le_rfl]
      rw [ih, List.flatten_cons, ctrXor_append]

theorem writeSession_persisted (KS : String → List Nat → Nat → Nat)
    (secret : String) (iv : List Nat) (Ps : List (List Nat)) :
    writtenOf (writeSessionEvents KS secret iv Ps)
      = iv ++ ctrXor (KS secret iv) 0 Ps.flatten := by
  simp only [writeSessionEvents, writtenOf_append]
  rw [sessionWrites_writtenOf]
  simp [hopen_cip, writtenOf, closeEvsW, ctrFinal]

theorem hopen_cip_read_ok (KS : String → List Nat → Nat → Nat)
    (secret : String) (raw iv : List Nat) (h : 16 ≤ raw.length) :
    hopen_cip KS (some secret) AccMode.rdonly raw iv
      = (Except.ok ⟨false, KS secret (raw.take 16), 0, raw.drop 16⟩,
         [Ev.rawOpen, Ev.rawRead (raw.take 16), Ev.keyDerive, Ev.cipherInit])
    := by
  have hmin : min 16 raw.length = 16 := min_eq_left h
  simp [hopen_cip, hmin]

theorem readSession_eq (KS : String → List Nat → Nat → Nat) (secret : String)
    (raw : List Nat) (n : Nat) (h : 16 ≤ raw.length) :
    readSession KS secret raw n
      = Except.ok (cip_read (KS secret (raw.take 16)) cipBufsize 0
          (raw.drop 16) n) := by
  unfold readSession
  rw [hopen_cip_read_ok KS secret raw [] h]

/-- C2: for every byte sequence written (here: any sequence of write
calls `Ps`, total plaintext `Ps.flatten`), a write session (open, the
writes, close) followed by a fresh read session over the resulting
underlying bytes, reading at least to end of stream, yields exactly the
plaintext back. -/
theorem cip_round_trip (KS : String → List Nat → Nat → Nat) (secret : String)
    (iv : List Nat) (Ps : List (List Nat)) (n : Nat)
    (hiv : iv.length = 16) (hn : Ps.flatten.length ≤ n) :
    readSession KS secret (writtenOf (writeSessionEvents KS secret iv Ps)) n
      = Except.ok Ps.flatten := by
  rw [writeSession_persisted]
  have hctlen : (ctrXor (KS secret iv) 0 Ps.flatten).length
      = Ps.flatten.length := ctrXor_length _ 0 _
  have hlen : 16 ≤ (iv ++ ctrXor (KS secret iv) 0 Ps.flatten).length := by
    simp [List.length_append, hiv]
  rw [readSession_eq KS secret _ n hlen]
  have htake : (iv ++ ctrXor (KS secret iv) 0 Ps.flatten).take 16 = iv := by
    rw [← hiv]
    exact List.take_left iv _
  have hdrop : (iv ++ ctrXor (KS secret iv) 0 Ps.flatten).drop 16
      = ctrXor (KS secret iv) 0 Ps.flatten := by
    rw [← hiv]
    exact List.drop_left iv _
  rw [htake, hdrop]
  rw [cip_read_collapse (KS secret iv) cipBufsize (by decide)
    (ctrXor (KS secret iv) 0 Ps.flatten).length 0 _ n le_rfl]
  have hfull : (ctrXor (KS secret iv) 0 Ps.flatten).take n
      = ctrXor (KS secret iv) 0 Ps.flatten := by
    apply List.take_of_length_le
    omega
  rw [hfull, ctrXor_ctrXor]

/-- Witness for `cip_round_trip` at a concrete keystream, IV and
plaintext. -/
theorem cip_round_trip_witness :
    (List.replicate 16 0).length = 16
    ∧ ([[1, 2, 3], [4, 5]] : List (List Nat)).flatten.length ≤ 8
    ∧ readSession (fun _ _ _ => 0) "k"
        (writtenOf (writeSessionEvents (fun _ _ _ => 0) "k"
          (List.replicate 16 0) [[1, 2, 3], [4, 5]])) 8
      = Except.ok ([[1, 2, 3], [4, 5]] : List (List Nat)).flatten :=
  ⟨by decide, by decide,
   cip_round_trip (fun _ _ _ => 0) "k" (List.replicate 16 0)
     [[1, 2, 3], [4, 5]] 8 (by decide) (by decide)⟩

/-- C3: a write session persists exactly the 16-byte IV header in the
clear followed by ciphertext whose length equals the total plaintext
the caller wrote; the IV is the first thing written to the underlying
stream, before any ciphertext. -/
theorem cip_write_session_format (KS : String → List Nat → Nat → Nat)
    (secret : String) (iv : List Nat) (Ps : List (List Nat))
    (hiv : iv.length = 16) :
    writtenOf (writeSessionEvents KS secret iv Ps)
        = iv ++ ctrXor (KS secret iv) 0 Ps.flatten
      ∧ (ctrXor (KS secret iv) 0 Ps.flatten).length = Ps.flatten.length
      ∧ (writtenOf (writeSessionEvents KS secret iv Ps)).take 16 = iv
      ∧ (writesOf (writeSessionEvents KS secret iv Ps)).head? = some iv := by
  refine ⟨writeSession_persisted KS secret iv Ps, ctrXor_length _ 0 _, ?_, ?_⟩
  · rw [writeSession_persisted, ← hiv, List.take_left]
  · simp only [writeSessionEvents, writesOf_append]
    have hopenW : writesOf (hopen_cip KS (some secret) AccMode.wronly [] iv).2
        = [iv] := by
      simp [hopen_cip, writesOf]
    rw [hopenW]
    simp

/-- Witness for `cip_write_session_format` at a concrete IV and
plaintext. -/
theorem cip_write_session_format_witness :
    (List.replicate 16 1).length = 16
    ∧ (writtenOf (writeSessionEvents (fun _ _ _ => 7) "k"
          (List.replicate 16 1) [[9, 8]])
        = List.replicate 16 1 ++ ctrXor (fun _ => 7) 0 [9, 8]
      ∧ (ctrXor (fun _ => 7) 0 ([[9, 8]] : List (List Nat)).flatten).length
          = ([[9, 8]] : List (List Nat)).flatten.length
      ∧ (writtenOf (writeSessionEvents (fun _ _ _ => 7) "k"
          (List.replicate 16 1) [[9, 8]])).take 16 = List.replicate 16 1
      ∧ (writesOf (writeSessionEvents (fun _ _ _ => 7) "k"
          (List.replicate 16 1) [[9, 8]])).head? = some (List.replicate 16 1))
    :=
  ⟨by decide,
   cip_write_session_format (fun _ _ _ => 7) "k" (List.replicate 16 1)
     [[9, 8]] (by decide)⟩

/-- C4: opening with no configured secret fails with EPERM and performs
zero underlying-stream I/O (the event trace is empty: the underlying
stream is never opened, read, or written). -/
theorem hopen_cip_missing_secret (KS : String → List Nat → Nat → Nat)
    (accmode : AccMode) (raw iv : List Nat) :
    hopen_cip KS none accmode raw iv = (Except.error EPERM, []) := rfl

/-- C5: a read-session open against an underlying stream holding fewer
than 16 bytes fails with EDOM (truncated header), and neither key
derivation nor cipher initialization occurs. -/
theorem hopen_cip_truncated_header (KS : String → List Nat → Nat → Nat)
    (secret : String) (raw iv : List Nat) (h : raw.length < 16) :
    (hopen_cip KS (some secret) AccMode.rdonly raw iv).1 = Except.error EDOM
    ∧ (hopen_cip KS (some secret) AccMode.rdonly raw iv).2
        = [Ev.rawOpen, Ev.rawRead raw, Ev.rawCloseAbrupt, Ev.freeAll]
    ∧ Ev.keyDerive ∉ (hopen_cip KS (some secret) AccMode.rdonly raw iv).2
    ∧ Ev.cipherInit ∉ (hopen_cip KS (some secret) AccMode.rdonly raw iv).2
    := by
  have hmin : min 16 raw.length = raw.length := min_eq_right (le_of_lt h)
  have htk : raw.take raw.length = raw := by simp
  refine ⟨?_, ?_, ?_, ?_⟩ <;> simp [hopen_cip, hmin, h, htk]

/-- Witness for `hopen_cip_truncated_header` at the empty underlying
stream. -/
theorem hopen_cip_truncated_header_witness :
    ([] : List Nat).length < 16
    ∧ ((hopen_cip (fun _ _ _ => 0) (some "k") AccMode.rdonly [] []).1
          = Except.error EDOM
      ∧ (hopen_cip (fun _ _ _ => 0) (some "k") AccMode.rdonly [] []).2
          = [Ev.rawOpen, Ev.rawRead [], Ev.rawCloseAbrupt, Ev.freeAll]
      ∧ Ev.keyDerive
          ∉ (hopen_cip (fun _ _ _ => 0) (some "k") AccMode.rdonly [] []).2
      ∧ Ev.cipherInit
          ∉ (hopen_cip (fun _ _ _ => 0) (some "k") AccMode.rdonly [] []).2) :=
  ⟨by decide,
   hopen_cip_truncated_header (fun _ _ _ => 0) "k" [] [] (by decide)⟩

/-- C6: any seek on any open session fails with ESPIPE and leaves the
session state entirely unchanged. -/
theorem cip_seek_not_seekable (fp : OpenedCip) (offset whence : Int) :
    (cip_seek fp offset whence).1 = Except.error ESPIPE
    ∧ (cip_seek fp offset whence).2 = fp :=
  ⟨rfl, rfl⟩

/-- C10: an open with an access mode that is neither read-only nor
write-only fails with EINVAL after the underlying stream was opened;
the underlying stream is closed abruptly and the partial resources are
freed, and no key derivation or cipher initialization occurs. -/
theorem hopen_cip_rdwr_rejected (KS : String → List Nat → Nat → Nat)
    (secret : String) (raw iv : List Nat) :
    hopen_cip KS (some secret) AccMode.rdwr raw iv
        = (Except.error EINVAL, [Ev.rawOpen, Ev.rawCloseAbrupt, Ev.freeAll])
    ∧ Ev.keyDerive ∉ (hopen_cip KS (some secret) AccMode.rdwr raw iv).2
    ∧ Ev.cipherInit ∉ (hopen_cip KS (some secret) AccMode.rdwr raw iv).2 := by
  refine ⟨rfl, ?_, ?_⟩ <;> simp [hopen_cip]

/-- Outcome of one underlying `hread` call: either some bytes (an empty
list being end-of-stream) or a failure (`hread` returned -1). -/
inductive RRes where
  | bytes : List Nat → RRes
  | fail : RRes
  deriving DecidableEq

/-- The `cip_read` loop with each underlying `hread` outcome scripted by
`oracle`, one entry per call, and the transformed bytes accumulated so
far in `acc` (the caller's buffer): while the caller still wants bytes,
`hread` up to `min nbytes bufsize`; a zero-byte read stops the loop and
the accumulated bytes are returned (EOF, not an error); a failed read
aborts immediately with an error and no partial result.  An exhausted
oracle is treated as EOF (theorems only use oracles scripting every
call reached); a response is capped at the requested size, as `hread`
never returns more than asked. -/
def cipReadOr (ks : Nat → Nat) (bufsize : Nat) (pos nbytes : Nat)
    (oracle : List RRes) (acc : List Nat) : Except Unit (List Nat) :=
  if nbytes = 0 then Except.ok acc
  else
    match oracle with
    | [] => Except.ok acc
    | RRes.fail :: _ => Except.error ()
    | RRes.bytes d :: rest =>
        let n := min nbytes bufsize
        let nread := min d.length n
        if nread = 0 then Except.ok acc
        else cipReadOr ks bufsize (pos + nread) (nbytes - nread) rest
              (acc ++ ctrXor ks pos (d.take nread))

/-- C7: in a read session, after any run of successful underlying reads
(`good`, each non-empty, each within the buffer size, the caller still
wanting more), a zero-byte underlying read stops the loop and returns
exactly the transformed bytes accumulated so far, while a failing
underlying read aborts with an error and returns no partial result —
whatever responses (`rest`) would have followed. -/
theorem cip_read_eof_and_fail (ks : Nat → Nat) (bufsize pos nbytes : Nat)
    (acc : List Nat) (good : List (List Nat)) (rest : List RRes)
    (hgood : ∀ c ∈ good, c ≠ [] ∧ c.length ≤ bufsize)
    (hsum : (good.map List.length).sum < nbytes) :
    cipReadOr ks bufsize pos nbytes
        (good.map RRes.bytes ++ RRes.bytes [] :: rest) acc
      = Except.ok (acc ++ ctrXor ks pos good.flatten)
    ∧ cipReadOr ks bufsize pos nbytes
        (good.map RRes.bytes ++ RRes.fail :: rest) acc
      = Except.error () := by
  induction good generalizing pos nbytes acc with
  | nil =>
      have hn : ¬ nbytes = 0 := by
        simp only [List.map_nil, List.sum_nil] at hsum
        omega
      constructor
      · simp [cipReadOr, hn, ctrXor]
      · simp [cipReadOr, hn]
  | cons c good ih =>
      have hc := hgood c (by simp)
      have hcne : c ≠ [] := hc.1
      have hcbs : c.length ≤ bufsize := hc.2
      have hcpos : 0 < c.length := List.length_pos.mpr hcne
      have hsums : c.length + (good.map List.length).sum < nbytes := by
        simpa [List.map_cons, List.sum_cons] using hsum
      have hn : ¬ nbytes = 0 := by omega
      have hcn : c.length ≤ min nbytes bufsize :=
        le_min (by omega) hcbs
      have hnread : min c.length (min nbytes bufsize) = c.length :=
        min_eq_left hcn
      have hnread0 : ¬ c.length = 0 := by omega
      have htkc : c.take c.length = c := by simp
      have ihc := ih (pos + c.length) (nbytes - c.length)
        (acc ++ ctrXor ks pos c)
        (fun x hx => hgood x (List.mem_cons_of_mem c hx))
        (by omega)
      constructor
      · simp only [List.map_cons, List.cons_append]
        rw [cipReadOr]
        simp only [hn, if_false, hnread, hnread0, htkc]
        rw [ihc.1]
        simp [List.flatten_cons, ctrXor_append, List.append_assoc]
      · simp only [List.map_cons, List.cons_append]
        rw [cipReadOr]
        simp only [hn, if_false, hnread, hnread0, htkc]
        rw [ihc.2]

/-- Witness for `cip_read_eof_and_fail` at a concrete chunk script. -/
theorem cip_read_eof_and_fail_witness :
    (∀ c ∈ [[1, 2], [3]], c ≠ ([] : List Nat) ∧ c.length ≤ 4)
    ∧ (([[1, 2], [3]].map List.length).sum < 10)
    ∧ (cipReadOr (fun _ => 0) 4 0 10
          ([[1, 2], [3]].map RRes.bytes ++ RRes.bytes [] :: []) []
        = Except.ok ([] ++ ctrXor (fun _ => 0) 0 [[1, 2], [3]].flatten)
      ∧ cipReadOr (fun _ => 0) 4 0 10
          ([[1, 2], [3]].map RRes.bytes ++ RRes.fail :: []) []
        = Except.error ()) :=
  ⟨by decide, by decide,
   cip_read_eof_and_fail (fun _ => 0) 4 0 10 [] [[1, 2], [3]] []
     (by decide) (by decide)⟩

/-- Fuel-driven computation of the chunk lengths the `cip_write` loop
carves a caller buffer into (`min remaining bufsize` repeatedly); any
`fuel ≥ len` gives the same answer. -/
def chunkSizesAux (bufsize : Nat) : Nat → Nat → List Nat
  | _, 0 => []
  | 0, _ + 1 => []
  | fuel + 1, len + 1 =>
      if bufsize = 0 then []
      else min (len + 1) bufsize ::
        chunkSizesAux bufsize fuel (len + 1 - min (len + 1) bufsize)

/-- The sequence of chunk lengths the `cip_write` loop uses for a
caller buffer of length `len`. -/
def chunkSizes (bufsize len : Nat) : List Nat := chunkSizesAux bufsize len len

theorem chunkSizesAux_irrel (bufsize : Nat) :
    ∀ fuel₁ fuel₂ len, len ≤ fuel₁ → len ≤ fuel₂ →
      chunkSizesAux bufsize fuel₁ len = chunkSizesAux bufsize fuel₂ len := by
  intro fuel₁
  induction fuel₁ with
  | zero =>
      intro fuel₂ len h1 h2
      have : len = 0 := Nat.le_zero.mp h1
      subst this
      cases fuel₂ <;> rfl
  | succ f ih =>
      intro fuel₂ len h1 h2
      match len, fuel₂ with
      | 0, fuel₂ => cases fuel₂ <;> rfl
      | l + 1, f₂ + 1 =>
          simp only [chunkSizesAux]
          by_cases hbs : bufsize = 0
          · simp [hbs]
          · simp only [hbs, if_false]
            have hm : 0 < min (l + 1) bufsize :=
              lt_min (Nat.succ_pos l) (Nat.pos_of_ne_zero hbs)
            congr 1
            exact ih f₂ _ (by omega) (by omega)

theorem chunkSizes_eq (bufsize len : Nat) (hbs : bufsize ≠ 0)
    (hlen : len ≠ 0) :
    chunkSizes bufsize len
      = min len bufsize :: chunkSizes bufsize (len - min len bufsize) := by
  match len with
  | l + 1 =>
      unfold chunkSizes
      simp only [chunkSizesAux, hbs, if_false]
      congr 1
      have hm : 0 < min (l + 1) bufsize :=
        lt_min (Nat.succ_pos l) (Nat.pos_of_ne_zero hbs)
      exact chunkSizesAux_irrel bufsize l _ _ (by omega) (by omega)

/-- The `cip_write` loop with each underlying `hwrite` outcome scripted
by `oracle`: each entry is the count the underlying stream accepts for
that call; the source fails the call when the count differs from the
full transformed chunk.  Returns the result (the running `total` plus
all caller bytes consumed on success, an error on a short write) and
the trace of `hwrite` calls (the full transformed chunk is always the
argument).  An exhausted oracle while data remains is an artifact
(theorems only use oracles scripting every call reached). -/
def cipWriteOr (ks : Nat → Nat) (bufsize pos : Nat) (data : List Nat)
    (oracle : List Nat) (total : Nat) : Except Unit Nat × List Ev :=
  match data, oracle with
  | [], _ => (Except.ok total, [])
  | _ :: _, [] => (Except.error (), [])
  | d :: ds, k :: rest =>
      let n := min (d :: ds).length bufsize
      let out := ctrXor ks pos ((d :: ds).take n)
      if k = out.length then
        let r := cipWriteOr ks bufsize (pos + n) ((d :: ds).drop n) rest
          (total + n)
        (r.1, Ev.rawWrite out :: r.2)
      else (Except.error (), [Ev.rawWrite out])

theorem cipWriteOr_full (ks : Nat → Nat) (bufsize : Nat)
    (hbs : bufsize ≠ 0) :
    ∀ len pos (data : List Nat) total, data.length ≤ len →
      cipWriteOr ks bufsize pos data (chunkSizes bufsize data.length) total
        = (Except.ok (total + data.length), cipWriteEvs ks bufsize pos data)
    := by
  intro len
  induction len with
  | zero =>
      intro pos data total hlen
      have hdata : data = [] := List.length_eq_zero.mp (Nat.le_zero.mp hlen)
      subst hdata
      rw [cipWriteEvs]
      simp [cipWriteOr]
  | succ f ih =>
      intro pos data total hlen
      match data with
      | [] =>
          rw [cipWriteEvs]
          simp [cipWriteOr]
      | d :: ds =>
          have hlen0 : (d :: ds).length ≠ 0 := by simp
          rw [chunkSizes_eq bufsize (d :: ds).length hbs hlen0]
          rw [cipWriteOr]
          have hn_le : min (d :: ds).length bufsize ≤ (d :: ds).length :=
            min_le_left _ _
          have houtlen : (ctrXor ks pos
              ((d :: ds).take (min (d :: ds).length bufsize))).length
              = min (d :: ds).length bufsize := by
            rw [ctrXor_length]
            simp [List.length_take]
          simp only [houtlen, if_true]
          have hdroplen : ((d :: ds).drop
              (min (d :: ds).length bufsize)).length
              = (d :: ds).length - min (d :: ds).length bufsize := by
            simp [List.length_drop]
          have hmpos : 0 < min (d :: ds).length bufsize :=
            lt_min (by simp) (Nat.pos_of_ne_zero hbs)
          have hrec := ih (pos + min (d :: ds).length bufsize)
            ((d :: ds).drop (min (d :: ds).length bufsize))
            (total + min (d :: ds).length bufsize)
            (by simp only [List.length_drop]; simp at hlen ⊢; omega)
          rw [hdroplen] at hrec
          rw [hrec]
          have hcond : ¬((d :: ds) = [] ∨ bufsize = 0) := by
            intro hc
            rcases hc with hc | hc
            · exact List.cons_ne_nil d ds hc
            · exact hbs hc
          conv_rhs => rw [cipWriteEvs]
          simp only [hcond, dite_false, Prod.mk.injEq, Except.ok.injEq]
          constructor
          · omega
          · trivial

theorem cipWriteOr_short (ks : Nat → Nat) (bufsize : Nat)
    (hbs : bufsize ≠ 0) :
    ∀ j pos (data : List Nat) total (k : Nat) (rest : List Nat),
      j < (chunkSizes bufsize data.length).length →
      k ≠ (chunkSizes bufsize data.length).getD j 0 →
      (cipWriteOr ks bufsize pos data
        ((chunkSizes bufsize data.length).take j ++ k :: rest) total).1
        = Except.error () := by
  intro j
  induction j with
  | zero =>
      intro pos data total k rest hj hk
      match data with
      | [] => simp [chunkSizes, chunkSizesAux] at hj
      | d :: ds =>
          have hlen0 : (d :: ds).length ≠ 0 := by simp
          rw [chunkSizes_eq bufsize (d :: ds).length hbs hlen0] at hj hk ⊢
          simp only [List.take_zero, List.nil_append, List.getD_cons_zero]
            at hk ⊢
          rw [cipWriteOr]
          have houtlen : (ctrXor ks pos
              ((d :: ds).take (min (d :: ds).length bufsize))).length
              = min (d :: ds).length bufsize := by
            rw [ctrXor_length]
            simp [List.length_take]
          simp only [houtlen]
          have hk2 : ¬ k = (ds.length + 1) ⊓ bufsize := by simpa using hk
          simp [hk2]
  | succ j ih =>
      intro pos data total k rest hj hk
      match data with
      | [] => simp [chunkSizes, chunkSizesAux] at hj
      | d :: ds =>
          have hlen0 : (d :: ds).length ≠ 0 := by simp
          rw [chunkSizes_eq bufsize (d :: ds).length hbs hlen0] at hj hk ⊢
          simp only [List.length_cons, Nat.succ_lt_succ_iff] at hj
          simp only [List.getD_cons_succ] at hk
          simp only [List.take_succ_cons, List.cons_append]
          rw [cipWriteOr]
          have houtlen : (ctrXor ks pos
              ((d :: ds).take (min (d :: ds).length bufsize))).length
              = min (d :: ds).length bufsize := by
            rw [ctrXor_length]
            simp [List.length_take]
          simp only [houtlen, if_true]
          have hdroplen : ((d :: ds).drop
              (min (d :: ds).length bufsize)).length
              = (d :: ds).length - min (d :: ds).length bufsize := by
            simp [List.length_drop]
          have hrec := ih (pos + min (d :: ds).length bufsize)
            ((d :: ds).drop (min (d :: ds).length bufsize))
            (total + min (d :: ds).length bufsize) k rest
            (by rw [hdroplen]; exact hj)
            (by rw [hdroplen]; exact hk)
          rw [hdroplen] at hrec
          simp only [List.length_cons] at hrec
          simpa using hrec

/-- C8: the `cip_write` loop hands every transformed chunk to the
underlying stream in full (the write trace is exactly the chunk
decomposition of the caller's bytes, whose concatenation is the
length-preserving ciphertext), an underlying write that accepts a
count different from the full chunk fails the call with no retry, and
on success the call returns exactly the number of caller bytes
consumed. -/
theorem cip_write_full_chunks (ks : Nat → Nat) (bufsize pos : Nat)
    (data : List Nat) (k j : Nat) (rest : List Nat) (hbs : bufsize ≠ 0) :
    cipWriteOr ks bufsize pos data (chunkSizes bufsize data.length) 0
        = (Except.ok data.length, cipWriteEvs ks bufsize pos data)
      ∧ writtenOf (cipWriteEvs ks bufsize pos data) = ctrXor ks pos data
      ∧ (j < (chunkSizes bufsize data.length).length →
          k ≠ (chunkSizes bufsize data.length).getD j 0 →
          (cipWriteOr ks bufsize pos data
            ((chunkSizes bufsize data.length).take j ++ k :: rest) 0).1
            = Except.error ()) := by
  refine ⟨?_, ?_, ?_⟩
  · have := cipWriteOr_full ks bufsize hbs data.length pos data 0 le_rfl
    simpa using this
  · exact cipWriteEvs_writtenOf ks bufsize hbs data.length pos data le_rfl
  · intro hj hk
    exact cipWriteOr_short ks bufsize hbs j pos data 0 k rest hj hk

/-- Witness for `cip_write_full_chunks` at a concrete buffer and a
concrete short write. -/
theorem cip_write_full_chunks_witness :
    (4 : Nat) ≠ 0
    ∧ (cipWriteOr (fun _ => 0) 4 0 [1, 2, 3, 4, 5]
          (chunkSizes 4 ([1, 2, 3, 4, 5] : List Nat).length) 0
        = (Except.ok ([1, 2, 3, 4, 5] : List Nat).length,
           cipWriteEvs (fun _ => 0) 4 0 [1, 2, 3, 4, 5])
      ∧ writtenOf (cipWriteEvs (fun _ => 0) 4 0 [1, 2, 3, 4, 5])
          = ctrXor (fun _ => 0) 0 [1, 2, 3, 4, 5]
      ∧ (1 < (chunkSizes 4 ([1, 2, 3, 4, 5] : List Nat).length).length →
          7 ≠ (chunkSizes 4 ([1, 2, 3, 4, 5] : List Nat).length).getD 1 0 →
          (cipWriteOr (fun _ => 0) 4 0 [1, 2, 3, 4, 5]
            ((chunkSizes 4 ([1, 2, 3, 4, 5] : List Nat).length).take 1
              ++ 7 :: []) 0).1
            = Except.error ())) :=
  ⟨by decide,
   cip_write_full_chunks (fun _ => 0) 4 0 [1, 2, 3, 4, 5] 7 1 [] (by decide)⟩

/-- The stage outcomes one `cip_close` call can encounter.  `finalRes`
is the `cipher_final` outcome: trailing bytes to flush (empty under
CTR) or a failure's errno.  `flushErr` scripts the `hwrite` of a
non-empty trailing chunk (`some e`: short write, errno `e`).
`cleanupErr` scripts releasing the cipher context; `closeErr` scripts
the `hclose` of the underlying stream.  `none` means the stage
succeeded. -/
structure CloseEnv where
  finalRes : Except Nat (List Nat)
  flushErr : Option Nat
  cleanupErr : Option Nat
  closeErr : Option Nat

/-- `cip_close`: on a write session run `cipher_final`, flushing any
trailing bytes with `hwrite` and recording a failure's errno in `err`;
then release the cipher context, a failure overwriting `err`; then
`hclose` the underlying stream, a failure again overwriting `err`;
finally report `err` (0 means success).  Every stage runs regardless
of earlier failures. -/
def cip_close (is_write : Bool) (env : CloseEnv) : Except Nat Unit :=
  let err1 : Nat :=
    if is_write then
      match env.finalRes with
      | Except.error e => e
      | Except.ok out =>
          if 0 < out.length then
            match env.flushErr with
            | some e => e
            | none => 0
          else 0
    else 0
  let err2 : Nat :=
    match env.cleanupErr with
    | some e => e
    | none => err1
  let err3 : Nat :=
    match env.closeErr with
    | some e => e
    | none => err2
  if err3 = 0 then Except.ok () else Except.error err3

/-- The error recorded by the finalize-and-flush stage of `cip_close`
(spec-side characterization, for stating error-precedence). -/
def stage1Err (is_write : Bool) (env : CloseEnv) : Option Nat :=
  if is_write then
    match env.finalRes with
    | Except.error e => some e
    | Except.ok out => if 0 < out.length then env.flushErr else none
  else none

/-- The last error recorded across the three stages of `cip_close`,
later stages overwriting earlier ones (spec-side characterization). -/
def lastRecordedErr (is_write : Bool) (env : CloseEnv) : Option Nat :=
  match env.closeErr with
  | some e => some e
  | none =>
      match env.cleanupErr with
      | some e => some e
      | none => stage1Err is_write env

/-- C1 counterexample: on a write-session close where the
finalize/flush stage fails with errno 5 and the underlying close fails
with errno 7, `cip_close` reports errno 7 — the last recorded error —
not the first-recorded flush error 5 that the claim predicts. -/
theorem cip_close_first_error_cex :
    cip_close true ⟨Except.error 5, none, none, some 7⟩ = Except.error 7
    ∧ cip_close true ⟨Except.error 5, none, none, some 7⟩
        ≠ Except.error 5 := by
  constructor
  · rfl
  · simp [cip_close]

/-- C1 (amended): when stages of `cip_close` fail (each failing stage
recording a non-zero errno), the reported error is the LAST one
recorded — a later stage's failure overwrites an earlier one's — and
success is reported exactly when no stage recorded an error; in
particular when the finalize/flush stage fails and the underlying
close also fails, close reports the close error. -/
theorem cip_close_reports_last_error (is_write : Bool) (env : CloseEnv)
    (h1 : stage1Err is_write env ≠ some 0)
    (h2 : env.cleanupErr ≠ some 0)
    (h3 : env.closeErr ≠ some 0) :
    cip_close is_write env
      = (match lastRecordedErr is_write env with
         | some e => Except.error e
         | none => Except.ok ()) := by
  rcases env with ⟨fr, fl, cl, co⟩
  cases co with
  | some e =>
      have he : e ≠ 0 := by
        intro h
        exact h3 (by rw [h])
      simp [cip_close, lastRecordedErr, he]
  | none =>
      cases cl with
      | some e =>
          have he : e ≠ 0 := by
            intro h
            exact h2 (by rw [h])
          simp [cip_close, lastRecordedErr, he]
      | none =>
          cases is_write with
          | false => simp [cip_close, lastRecordedErr, stage1Err]
          | true =>
              cases fr with
              | error e =>
                  have he : e ≠ 0 := by
                    intro h
                    exact h1 (by simp [stage1Err, h])
                  simp [cip_close, lastRecordedErr, stage1Err, he]
              | ok out =>
                  by_cases hlen : 0 < out.length
                  · cases fl with
                    | some e =>
                        have he : e ≠ 0 := by
                          intro h
                          exact h1 (by simp [stage1Err, hlen, h])
                        simp [cip_close, lastRecordedErr, stage1Err, hlen, he]
                    | none =>
                        simp [cip_close, lastRecordedErr, stage1Err, hlen]
                  · simp [cip_close, lastRecordedErr, stage1Err, hlen]

/-- Witness for `cip_close_reports_last_error`: flush fails with errno
5 and the underlying close fails with errno 7; the reported error is
the last recorded one. -/
theorem cip_close_reports_last_error_witness :
    (stage1Err true ⟨Except.error 5, none, none, some 7⟩ ≠ some 0
      ∧ (⟨Except.error 5, none, none, some 7⟩ : CloseEnv).cleanupErr
          ≠ some 0
      ∧ (⟨Except.error 5, none, none, some 7⟩ : CloseEnv).closeErr
          ≠ some 0)
    ∧ cip_close true ⟨Except.error 5, none, none, some 7⟩
      = (match lastRecordedErr true ⟨Except.error 5, none, none, some 7⟩ with
         | some e => Except.error e
         | none => Except.ok ()) :=
  ⟨⟨by decide, by decide, by decide⟩,
   cip_close_reports_last_error true ⟨Except.error 5, none, none, some 7⟩
     (by decide) (by decide) (by decide)⟩

theorem isPref_append_self : ∀ (a x : List Char), isPref a (a ++ x) = true := by
  intro a
  induction a with
  | nil => intro x; rfl
  | cons c cs ih =>
      intro x
      simp [isPref, ih]

/-- C9 counterexample: the three accepted prefixed forms of the same
path "foo" do not all normalize to the same inner target string: the
localhost-authority and empty-authority forms strip to "/foo" while
the bare form strips to "foo". -/
theorem strip_cip_scheme_cex :
    strip_cip_scheme ("cip://localhost/foo".toList) = "/foo".toList
    ∧ strip_cip_scheme ("cip:///foo".toList) = "/foo".toList
    ∧ strip_cip_scheme ("cip:foo".toList) = "foo".toList
    ∧ strip_cip_scheme ("cip:foo".toList)
        ≠ strip_cip_scheme ("cip://localhost/foo".toList) :=
  ⟨by decide, by decide, by decide, by decide⟩

/-- C9 (amended): all recognized prefixes are stripped, the
localhost-authority and empty-authority forms both normalizing to
`/<path>` while the bare form yields the path exactly as written after
the colon; hence the three forms agree precisely when the bare form
carries the leading slash (`cip:/<path>`). -/
theorem strip_cip_scheme_forms (p : List Char) (hp : p.head? ≠ some '/') :
    strip_cip_scheme ("cip://localhost/".toList ++ p) = '/' :: p
    ∧ strip_cip_scheme ("cip:///".toList ++ p) = '/' :: p
    ∧ strip_cip_scheme ("cip:/".toList ++ p) = '/' :: p
    ∧ strip_cip_scheme ("cip:".toList ++ p) = p := by
  refine ⟨?_, ?_, ?_, ?_⟩
  · have h1 : isPref ("cip://localhost/".toList)
        ("cip://localhost/".toList ++ p) = true := isPref_append_self _ _
    simp only [strip_cip_scheme, h1, if_true]
    have e1 : "cip://localhost/".toList ++ p
        = "cip://localhost".toList ++ ('/' :: p) := rfl
    rw [e1]
    have hl : ("cip://localhost".toList).length = 15 := rfl
    rw [← hl, List.drop_left]
  · have h2a : isPref ("cip://localhost/".toList)
        ("cip:///".toList ++ p) = false := rfl
    have h2b : isPref ("cip:///".toList) ("cip:///".toList ++ p) = true :=
      isPref_append_self _ _
    simp only [strip_cip_scheme, h2a, h2b, if_true, Bool.false_eq_true,
      if_false]
    have e1 : "cip:///".toList ++ p = "cip://".toList ++ ('/' :: p) := rfl
    rw [e1]
    have hl : ("cip://".toList).length = 6 := rfl
    rw [← hl, List.drop_left]
  · cases p with
    | nil => decide
    | cons c p' =>
        have hc : ¬ c = '/' := fun h => hp (by simp [h])
        have hbc : ('/' == c) = false := by
          apply beq_eq_false_iff_ne.mpr
          intro h
          exact hc h.symm
        have e0 : "cip:/".toList ++ (c :: p')
            = 'c' :: 'i' :: 'p' :: ':' :: '/' :: c :: p' := rfl
        have c1 : isPref ("cip://localhost/".toList)
            ('c' :: 'i' :: 'p' :: ':' :: '/' :: c :: p') = false := by
          have e2 : "cip://localhost/".toList
              = 'c' :: 'i' :: 'p' :: ':' :: '/' :: '/' :: 'l' :: 'o' :: 'c'
                :: 'a' :: 'l' :: 'h' :: 'o' :: 's' :: 't' :: '/' :: [] := rfl
          rw [e2]
          simp [isPref, hbc]
        have c2 : isPref ("cip:///".toList)
            ('c' :: 'i' :: 'p' :: ':' :: '/' :: c :: p') = false := by
          have e2 : "cip:///".toList
              = 'c' :: 'i' :: 'p' :: ':' :: '/' :: '/' :: '/' :: [] := rfl
          rw [e2]
          simp [isPref, hbc]
        have c3 : isPref ("cip:".toList)
            ('c' :: 'i' :: 'p' :: ':' :: '/' :: c :: p') = true := by
          have e2 : "cip:".toList = 'c' :: 'i' :: 'p' :: ':' :: [] := rfl
          rw [e2]
          simp [isPref]
        rw [e0]
        simp only [strip_cip_scheme, c1, c2, c3, if_true,
          Bool.false_eq_true, if_false]
        rfl
  · cases p with
    | nil => decide
    | cons c p' =>
        have hc : ¬ c = '/' := fun h => hp (by simp [h])
        have hbc : ('/' == c) = false := by
          apply beq_eq_false_iff_ne.mpr
          intro h
          exact hc h.symm
        have e0 : "cip:".toList ++ (c :: p')
            = 'c' :: 'i' :: 'p' :: ':' :: c :: p' := rfl
        have c1 : isPref ("cip://localhost/".toList)
            ('c' :: 'i' :: 'p' :: ':' :: c :: p') = false := by
          have e2 : "cip://localhost/".toList
              = 'c' :: 'i' :: 'p' :: ':' :: '/' :: '/' :: 'l' :: 'o' :: 'c'
                :: 'a' :: 'l' :: 'h' :: 'o' :: 's' :: 't' :: '/' :: [] := rfl
          rw [e2]
          simp [isPref, hbc]
        have c2 : isPref ("cip:///".toList)
            ('c' :: 'i' :: 'p' :: ':' :: c :: p') = false := by
          have e2 : "cip:///".toList
              = 'c' :: 'i' :: 'p' :: ':' :: '/' :: '/' :: '/' :: [] := rfl
          rw [e2]
          simp [isPref, hbc]
        have c3 : isPref ("cip:".toList)
            ('c' :: 'i' :: 'p' :: ':' :: c :: p') = true := by
          have e2 : "cip:".toList = 'c' :: 'i' :: 'p' :: ':' :: [] := rfl
          rw [e2]
          simp [isPref]
        rw [e0]
        simp only [strip_cip_scheme, c1, c2, c3, if_true,
          Bool.false_eq_true, if_false]
        rfl

/-- Witness for `strip_cip_scheme_forms` at the path "foo". -/
theorem strip_cip_scheme_forms_witness :
    ("foo".toList).head? ≠ some '/'
    ∧ (strip_cip_scheme ("cip://localhost/".toList ++ "foo".toList)
          = '/' :: "foo".toList
      ∧ strip_cip_scheme ("cip:///".toList ++ "foo".toList)
          = '/' :: "foo".toList
      ∧ strip_cip_scheme ("cip:/".toList ++ "foo".toList)
          = '/' :: "foo".toList
      ∧ strip_cip_scheme ("cip:".toList ++ "foo".toList) = "foo".toList) :=
  ⟨by decide, strip_cip_scheme_forms ("foo".toList) (by decide)⟩
